import Mathlib

/-!
Shallow embedding of the drawing application in `app.js` (class `DrawingApp`):
the geometry/transform helpers, the lazy-brush smoothing filter, the two-finger
pan/zoom gesture step, the stroke store with its undo/redo history, `clear`,
and the export-size computation of `share`.

JavaScript floating-point numbers are modelled as real numbers (the spec's
properties are stated "exactly over real arithmetic; within floating-point
tolerance in the implementation").  `Math.sqrt` is `Real.sqrt`,
`Math.atan2 y x` is `Complex.arg ⟨x, y⟩`, and the `Infinity` seeds of
`calculateBounds` are the `⊤`/`⊥` elements of `EReal`.
-/

set_option autoImplicit false
set_option linter.unusedVariables false

namespace Canvas

/-- A point `{x, y}` (screen space or world space), as used throughout
`app.js`. -/
@[ext]
structure Point where
  x : ℝ
  y : ℝ

/-- A stroke object `{ points: [...], timestamp: Date.now() }` as created by
`startDrawing`. -/
structure Stroke where
  points : List Point
  timestamp : ℤ

/-- A history entry: `{type: 'ADD_STROKE', stroke}` as pushed by `stopDrawing`,
or a `{type: 'CLEAR', previousStrokes}` entry (the `CLEAR` branches of
`undo`/`redo` test for this shape; the current `clear()` never pushes one). -/
inductive Action where
  | addStroke (stroke : Stroke)
  | clear (previousStrokes : List Stroke)

/-- The mutable fields of a `DrawingApp` instance that the modelled operations
read or write.  DOM/UI state (buttons, the splash screen element, the
clear-confirmation mode, `updateUI`) and the active-pointer map are not
modelled; the gesture handlers receive the pointer positions they would read
from that map as explicit arguments. -/
structure AppState where
  strokes : List Stroke
  currentStroke : Option Stroke
  isDirty : Bool
  scale : ℝ
  panX : ℝ
  panY : ℝ
  isDrawing : Bool
  lastTwoFingerDistance : ℝ
  lastTwoFingerCenter : Point
  pointerPos : Point
  brushPos : Point
  lazyEnabled : Bool
  history : List Action
  historyIndex : ℤ
  drawingEnabled : Bool

/-- The lazy radius: `this.lazyRadius = 15` — set in the constructor and never reassigned. -/
def lazyRadius : ℝ := 15

/-- The constructor's field initialisation (`drawingEnabled` starts `false`
while the splash screen is up). -/
def initialState : AppState where
  strokes := []
  currentStroke := none
  isDirty := true
  scale := 1
  panX := 0
  panY := 0
  isDrawing := false
  lastTwoFingerDistance := 0
  lastTwoFingerCenter := ⟨0, 0⟩
  pointerPos := ⟨0, 0⟩
  brushPos := ⟨0, 0⟩
  lazyEnabled := true
  history := []
  historyIndex := -1
  drawingEnabled := false

/-- Embedding of `hideSplashScreen`'s effect on the modelled state: `drawingEnabled = true`. -/
def enableDrawing (s : AppState) : AppState :=
  { s with drawingEnabled := true }

/-- Embedding of `screenToWorld(screenPoint)`: `world = (screen - pan) / scale`. -/
noncomputable def screenToWorld (s : AppState) (screenPoint : Point) : Point :=
  ⟨(screenPoint.x - s.panX) / s.scale, (screenPoint.y - s.panY) / s.scale⟩

/-- Embedding of `worldToScreen(worldPoint)`: `screen = world * scale + pan`. -/
noncomputable def worldToScreen (s : AppState) (worldPoint : Point) : Point :=
  ⟨worldPoint.x * s.scale + s.panX, worldPoint.y * s.scale + s.panY⟩

/-- Embedding of `getDistance(p1, p2)`: `Math.sqrt(Math.pow(p2.x-p1.x, 2) + Math.pow(p2.y-p1.y, 2))`. -/
noncomputable def getDistance (p1 p2 : Point) : ℝ :=
  Real.sqrt ((p2.x - p1.x) ^ 2 + (p2.y - p1.y) ^ 2)

/-- Embedding of `getAngle(p1, p2)`: `Math.atan2(p2.y-p1.y, p2.x-p1.x)`, i.e. the argument
of the complex number `(p2.x-p1.x) + (p2.y-p1.y)·i`. -/
noncomputable def getAngle (p1 p2 : Point) : ℝ :=
  Complex.arg ⟨p2.x - p1.x, p2.y - p1.y⟩

open Classical in
/-- Embedding of `updateLazyBrush(newPointerPos, friction = 0)`: records the raw pointer
position; if the lazy brush is disabled the brush jumps to the pointer, and
otherwise it moves `(distance - lazyRadius)` (times `1 - friction` when
`friction > 0`) along the brush-to-pointer angle, but only when the pointer is
outside the lazy radius.  Returns the updated state together with the
brush-moved flag. -/
noncomputable def updateLazyBrush (s : AppState) (newPointerPos : Point)
    (friction : ℝ) : AppState × Bool :=
  let s := { s with pointerPos := newPointerPos }
  if s.lazyEnabled = false then
    ({ s with brushPos := newPointerPos }, true)
  else
    let distance := getDistance s.brushPos s.pointerPos
    if lazyRadius < distance then
      let angle := getAngle s.brushPos s.pointerPos
      let moveDistance := distance - lazyRadius
      let moveDistance := if 0 < friction then moveDistance * (1 - friction) else moveDistance
      ({ s with
          brushPos := ⟨s.brushPos.x + Real.cos angle * moveDistance,
                       s.brushPos.y + Real.sin angle * moveDistance⟩ }, true)
    else
      (s, false)

/-- Embedding of `getTwoFingerDistance(p1, p2)` (same formula as `getDistance`, separate
method in the source). -/
noncomputable def getTwoFingerDistance (p1 p2 : Point) : ℝ :=
  Real.sqrt ((p2.x - p1.x) ^ 2 + (p2.y - p1.y) ^ 2)

/-- Embedding of `getCenter(p1, p2)`: the midpoint of the two pointer positions. -/
noncomputable def getCenter (p1 p2 : Point) : Point :=
  ⟨(p1.x + p2.x) / 2, (p1.y + p2.y) / 2⟩

/-- Embedding of `initializeTwoFingerGesture()` with the two tracked pointer positions
passed explicitly. -/
noncomputable def initTwoFingerGesture (s : AppState) (p1 p2 : Point) : AppState :=
  { s with
      lastTwoFingerDistance := getTwoFingerDistance p1 p2,
      lastTwoFingerCenter := getCenter p1 p2 }

open Classical in
/-- Embedding of `handleTwoFingerGesture()` with the two tracked pointer positions passed
explicitly (the source reads them from `this.pointers`; the early return for
`positions.length !== 2` is outside the model because exactly two positions are
supplied).  When the previously recorded separation is positive the transform
is updated: the zoom factor is clamped into `[0.1, 10]` through the new scale,
and the pan is corrected by `offset = (zoomCenter - pan) * (actualZoomFactor - 1)`
plus the midpoint displacement.  The trackers and dirty flag are always
updated. -/
noncomputable def handleTwoFingerGesture (s : AppState) (p1 p2 : Point) : AppState :=
  let currentDistance := getTwoFingerDistance p1 p2
  let currentCenter := getCenter p1 p2
  let s1 :=
    if 0 < s.lastTwoFingerDistance then
      let zoomFactor := currentDistance / s.lastTwoFingerDistance
      let newScale := s.scale * zoomFactor
      let clampedScale := max 0.1 (min 10 newScale)
      let actualZoomFactor := clampedScale / s.scale
      let panDx := currentCenter.x - s.lastTwoFingerCenter.x
      let panDy := currentCenter.y - s.lastTwoFingerCenter.y
      let zoomCenterX := s.lastTwoFingerCenter.x
      let zoomCenterY := s.lastTwoFingerCenter.y
      let offsetX := (zoomCenterX - s.panX) * (actualZoomFactor - 1)
      let offsetY := (zoomCenterY - s.panY) * (actualZoomFactor - 1)
      { s with
          scale := clampedScale,
          panX := s.panX - offsetX + panDx,
          panY := s.panY - offsetY + panDy }
    else s
  { s1 with
      lastTwoFingerDistance := currentDistance,
      lastTwoFingerCenter := currentCenter,
      isDirty := true }

/-- Embedding of `startDrawing(screenPos)`: guarded by `drawingEnabled`; seeds the lazy
brush at the contact point (`updateLazyBrush` with the default `friction = 0`,
then `brushPos = {...screenPos}`) and opens a fresh one-point stroke at the
corresponding world position, timestamped `Date.now()` (passed in as `now`). -/
noncomputable def startDrawing (s : AppState) (screenPos : Point) (now : ℤ) : AppState :=
  if s.drawingEnabled = false then s
  else
    let s1 := { s with isDrawing := true }
    let s2 := (updateLazyBrush s1 screenPos 0).1
    let s3 := { s2 with brushPos := screenPos }
    let worldPos := screenToWorld s3 s3.brushPos
    { s3 with currentStroke := some { points := [worldPos], timestamp := now } }

/-- Embedding of `continueDrawing(screenPos)`: guarded by
`drawingEnabled && isDrawing && currentStroke` (pure checks, re-ordered so the
stroke can be matched first); runs `updateLazyBrush` (default `friction = 0`)
and appends the brush's world position to the current stroke only when the
brush actually moved. -/
noncomputable def continueDrawing (s : AppState) (screenPos : Point) : AppState :=
  match s.currentStroke with
  | none => s
  | some st =>
    if s.drawingEnabled = false ∨ s.isDrawing = false then s
    else
      let r := updateLazyBrush s screenPos 0
      if r.2 = true then
        let worldPos := screenToWorld r.1 r.1.brushPos
        { r.1 with
            currentStroke := some { st with points := st.points ++ [worldPos] },
            isDirty := true }
      else r.1

/-- Embedding of `addToHistory(action)`: truncates the redo tail
(`history.slice(0, historyIndex + 1)`; the index is ≥ -1 in every reachable
state, where `Int.toNat` agrees with the slice bound), pushes the action,
advances the cursor, and evicts the oldest entry (`shift()`, cursor
decremented) when the log exceeds 50 entries. -/
def addToHistory (s : AppState) (action : Action) : AppState :=
  let history1 := s.history.take (s.historyIndex + 1).toNat
  let history2 := history1 ++ [action]
  let historyIndex2 := s.historyIndex + 1
  if 50 < history2.length then
    { s with history := history2.drop 1, historyIndex := historyIndex2 - 1 }
  else
    { s with history := history2, historyIndex := historyIndex2 }

/-- Embedding of `stopDrawing()`: commits the current stroke (and pushes an `ADD_STROKE`
history entry) only when drawing is active and the stroke has more than one
point; always leaves drawing mode, drops the in-progress stroke and marks the
view dirty. -/
def stopDrawing (s : AppState) : AppState :=
  let s1 :=
    match s.currentStroke with
    | some st =>
      if s.isDrawing = true ∧ 1 < st.points.length then
        addToHistory { s with strokes := s.strokes ++ [st] } (Action.addStroke st)
      else s
    | none => s
  { s1 with isDrawing := false, currentStroke := none, isDirty := true }

/-- Embedding of `undo()`: when the cursor is non-negative, inspects `history[historyIndex]`
(in range in every reachable state; an out-of-range access would throw in JS),
pops the last stroke for `ADD_STROKE` or restores the snapshot for `CLEAR`, and
decrements the cursor. -/
def undo (s : AppState) : AppState :=
  if 0 ≤ s.historyIndex then
    match s.history[s.historyIndex.toNat]? with
    | some (Action.addStroke _) =>
      { s with
          strokes := s.strokes.dropLast,
          historyIndex := s.historyIndex - 1,
          isDirty := true }
    | some (Action.clear previousStrokes) =>
      { s with
          strokes := previousStrokes,
          historyIndex := s.historyIndex - 1,
          isDirty := true }
    | none => s
  else s

/-- Embedding of `redo()`: when the cursor is not at the end, advances it and re-applies
`history[historyIndex]` (in range in every reachable state; an out-of-range
access would throw in JS): `ADD_STROKE` pushes the recorded stroke back,
`CLEAR` empties the stroke store. -/
def redo (s : AppState) : AppState :=
  if s.historyIndex < (s.history.length : ℤ) - 1 then
    let i := s.historyIndex + 1
    match (if 0 ≤ i then s.history[i.toNat]? else none) with
    | some (Action.addStroke stroke) =>
      { s with historyIndex := i, strokes := s.strokes ++ [stroke], isDirty := true }
    | some (Action.clear _) =>
      { s with historyIndex := i, strokes := [], isDirty := true }
    | none => s
  else s

/-- Embedding of `clear()`: when there are strokes, performs a hard reset — empties the
stroke store, discards the whole history log (cursor back to -1), resets the
transform to identity and marks the view dirty; otherwise the modelled state is
untouched (`exitClearConfirmMode` only manipulates DOM/UI state). -/
def clear (s : AppState) : AppState :=
  if 0 < s.strokes.length then
    { s with
        strokes := [],
        history := [],
        historyIndex := -1,
        scale := 1,
        panX := 0,
        panY := 0,
        isDirty := true }
  else s

/-- The world-space bounding box computed by `calculateBounds()`:
`minX`/`minY` start at `Infinity` and `maxX`/`maxY` at `-Infinity` (the `⊤` and
`⊥` of `EReal`), then every point of every stroke is folded in with
`Math.min`/`Math.max` in stroke order. -/
structure Bounds where
  minX : EReal
  minY : EReal
  maxX : EReal
  maxY : EReal

/-- One iteration of the inner loop of `calculateBounds()`. -/
noncomputable def boundsStep (b : Bounds) (p : Point) : Bounds :=
  ⟨min b.minX (p.x : ℝ), min b.minY (p.y : ℝ),
   max b.maxX (p.x : ℝ), max b.maxY (p.y : ℝ)⟩

/-- Embedding of `calculateBounds()`: the nested `for` loops over strokes and points. -/
noncomputable def calculateBounds (strokes : List Stroke) : Bounds :=
  strokes.foldl (fun b stroke => stroke.points.foldl boundsStep b) ⟨⊤, ⊤, ⊥, ⊥⟩

/-- The quantity `share()` computes as `width = bounds.maxX - bounds.minX + padding * 2` with
`padding = 32`.  On the path where this is evaluated the stroke list is
non-empty and every committed stroke has points, so the bounds are finite and
`EReal.toReal` is the identity embedding of the JS float values. -/
noncomputable def naturalWidth (strokes : List Stroke) : ℝ :=
  (calculateBounds strokes).maxX.toReal - (calculateBounds strokes).minX.toReal + 32 * 2

/-- The quantity `share()` computes as `height = bounds.maxY - bounds.minY + padding * 2`. -/
noncomputable def naturalHeight (strokes : List Stroke) : ℝ :=
  (calculateBounds strokes).maxY.toReal - (calculateBounds strokes).minY.toReal + 32 * 2

open Classical in
/-- The `scaleFactor` computed by `share()`: starts at 1, shrinks by
`sqrt(MAX_AREA / currentArea)` when the padded area exceeds the 4-megapixel
budget, and is then clamped through `MAX_DIMENSION / width` and
`MAX_DIMENSION / height` when a single dimension exceeds 2048. -/
noncomputable def shareScaleFactor (width height : ℝ) : ℝ :=
  let MAX_DIMENSION : ℝ := 2048
  let MAX_AREA := MAX_DIMENSION * MAX_DIMENSION
  let scaleFactor : ℝ := 1
  let currentArea := width * height
  let scaleFactor :=
    if MAX_AREA < currentArea then Real.sqrt (MAX_AREA / currentArea) else scaleFactor
  let scaleFactor :=
    if MAX_DIMENSION < width then min scaleFactor (MAX_DIMENSION / width) else scaleFactor
  let scaleFactor :=
    if MAX_DIMENSION < height then min scaleFactor (MAX_DIMENSION / height) else scaleFactor
  scaleFactor

open Classical in
/-- The offscreen-bitmap size computed by `share()` (lines up to
`offscreenCanvas.width/height = width/height * dpr`): `none` on the
empty-document early return, otherwise the scaled-down CSS dimensions times the
(possibly halved for heavily scaled-down exports) device pixel ratio.  The
canvas assignment truncates the float to an integer pixel count, so any
real-valued upper bound on these values also bounds the allocated bitmap. -/
noncomputable def shareCanvasSize (strokes : List Stroke) (devicePixelRatio : ℝ) :
    Option (ℝ × ℝ) :=
  if strokes.length = 0 then none
  else
    let width := naturalWidth strokes
    let height := naturalHeight strokes
    let scaleFactor := shareScaleFactor width height
    let width := width * scaleFactor
    let height := height * scaleFactor
    let dpr := if scaleFactor < 0.5 then max 1 (devicePixelRatio * 0.5) else devicePixelRatio
    some (width * dpr, height * dpr)

/-- The states reachable from the freshly constructed app by the modelled
operations (splash dismissal, the drawing pipeline, the two-finger gesture
handlers, and the four history-store commands). -/
inductive Reachable : AppState → Prop
  | init : Reachable initialState
  | enable {s} : Reachable s → Reachable (enableDrawing s)
  | start {s} (pos : Point) (now : ℤ) : Reachable s → Reachable (startDrawing s pos now)
  | move {s} (pos : Point) : Reachable s → Reachable (continueDrawing s pos)
  | stop {s} : Reachable s → Reachable (stopDrawing s)
  | undo {s} : Reachable s → Reachable (undo s)
  | redo {s} : Reachable s → Reachable (redo s)
  | clear {s} : Reachable s → Reachable (clear s)
  | initTwoFinger {s} (p1 p2 : Point) : Reachable s → Reachable (initTwoFingerGesture s p1 p2)
  | twoFinger {s} (p1 p2 : Point) : Reachable s → Reachable (handleTwoFingerGesture s p1 p2)

/-! ## Coordinate round-trip (C9) -/

/-- C9: for every point `p`, every positive scale and every pan, applying
`screenToWorld` and then `worldToScreen` under the same transform returns `p`
exactly over the reals. -/
theorem C9_roundtrip (s : AppState) (p : Point) (h : 0 < s.scale) :
    worldToScreen s (screenToWorld s p) = p := by
  have hs : s.scale ≠ 0 := ne_of_gt h
  cases p with
  | mk x y =>
    simp only [worldToScreen, screenToWorld, Point.mk.injEq]
    constructor <;> field_simp

/-- Witness for C9 at scale 2, pan (3, 4), point (7, 9). -/
theorem C9_roundtrip_witness :
    worldToScreen { initialState with scale := 2, panX := 3, panY := 4 }
      (screenToWorld { initialState with scale := 2, panX := 3, panY := 4 } ⟨7, 9⟩) =
      (⟨7, 9⟩ : Point) :=
  C9_roundtrip _ _ (by norm_num)

/-! ## Pinch-zoom anchoring (C2) -/

/-- C2: a two-finger move step whose midpoint equals the recorded midpoint
(fixed midpoint `M`), with positive previous and current separations and a
starting scale inside the clamp range, keeps the world point that was under `M`
mapped to `M` after the step. -/
theorem C2_pinch_anchor (s : AppState) (p1 p2 : Point)
    (hM : getCenter p1 p2 = s.lastTwoFingerCenter)
    (hprev : 0 < s.lastTwoFingerDistance)
    (hcur : 0 < getTwoFingerDistance p1 p2)
    (hlo : 0.1 ≤ s.scale) (hhi : s.scale ≤ 10) :
    worldToScreen (handleTwoFingerGesture s p1 p2)
      (screenToWorld s s.lastTwoFingerCenter) = s.lastTwoFingerCenter := by
  have hs : s.scale ≠ 0 := by
    intro h0
    rw [h0] at hlo
    norm_num at hlo
  apply Point.ext
  · simp only [handleTwoFingerGesture, hM, if_pos hprev, worldToScreen, screenToWorld]
    field_simp
    ring
  · simp only [handleTwoFingerGesture, hM, if_pos hprev, worldToScreen, screenToWorld]
    field_simp
    ring

/-- A concrete state for the C2 witness: scale 1, pan (0,0), recorded
separation 5 and recorded midpoint (0,0). -/
def pinchState : AppState :=
  { initialState with lastTwoFingerDistance := 5, lastTwoFingerCenter := ⟨0, 0⟩ }

/-- Witness for C2: fingers at (-3,-4) and (3,4) (current separation 10,
midpoint still (0,0)) applied to `pinchState`. -/
theorem C2_pinch_anchor_witness :
    worldToScreen (handleTwoFingerGesture pinchState ⟨-3, -4⟩ ⟨3, 4⟩)
      (screenToWorld pinchState pinchState.lastTwoFingerCenter) =
      pinchState.lastTwoFingerCenter := by
  have hcur : 0 < getTwoFingerDistance (⟨-3, -4⟩ : Point) (⟨3, 4⟩ : Point) := by
    rw [getTwoFingerDistance]
    apply Real.sqrt_pos.mpr
    norm_num
  have hM : getCenter (⟨-3, -4⟩ : Point) (⟨3, 4⟩ : Point) = pinchState.lastTwoFingerCenter := by
    apply Point.ext
    · show ((-3 : ℝ) + 3) / 2 = 0
      norm_num
    · show ((-4 : ℝ) + 4) / 2 = 0
      norm_num
  exact C2_pinch_anchor pinchState _ _ hM (by norm_num [pinchState, initialState]) hcur
    (by norm_num [pinchState, initialState]) (by norm_num [pinchState, initialState])

/-! ## Lazy brush (C5, C6) -/

/-- C5: with lazy smoothing enabled, a pointer within the lazy radius of the
brush leaves the brush unchanged and returns `false`; a pointer at distance
`d > lazyRadius` moves the brush by exactly `(d - lazyRadius) * (1 - friction)`
along the brush-to-pointer angle and returns `true` (for `friction = 0` the
factor `1 - friction` is `1`, matching the source's skipped multiplication). -/
theorem C5_lazy_update (s : AppState) (p : Point) (f : ℝ)
    (hf : 0 ≤ f) (hlazy : s.lazyEnabled = true) :
    (getDistance s.brushPos p ≤ lazyRadius →
      updateLazyBrush s p f = ({ s with pointerPos := p }, false)) ∧
    (lazyRadius < getDistance s.brushPos p →
      updateLazyBrush s p f =
        ({ s with
            pointerPos := p,
            brushPos := ⟨s.brushPos.x + Real.cos (getAngle s.brushPos p) *
                          ((getDistance s.brushPos p - lazyRadius) * (1 - f)),
                        s.brushPos.y + Real.sin (getAngle s.brushPos p) *
                          ((getDistance s.brushPos p - lazyRadius) * (1 - f))⟩ }, true)) := by
  constructor
  · intro hle
    simp only [updateLazyBrush, hlazy]
    rw [if_neg (by simp), if_neg (not_lt.mpr hle)]
  · intro hgt
    simp only [updateLazyBrush, hlazy]
    rw [if_neg (by simp), if_pos hgt]
    rcases lt_or_eq_of_le hf with hpos | hzero
    · rw [if_pos hpos]
    · rw [if_neg (by rw [← hzero]; exact lt_irrefl 0), ← hzero]
      norm_num

/-- Moving the brush `d - lazyRadius` toward a pointer at distance
`d > lazyRadius` leaves it at distance exactly `lazyRadius`. -/
lemma getDistance_after_move (b p : Point) (h : lazyRadius < getDistance b p) :
    getDistance
      ⟨b.x + Real.cos (getAngle b p) * (getDistance b p - lazyRadius),
       b.y + Real.sin (getAngle b p) * (getDistance b p - lazyRadius)⟩ p = lazyRadius := by
  rw [lazyRadius] at *
  set dx := p.x - b.x with hdx
  set dy := p.y - b.y with hdy
  have hdpos : 0 < getDistance b p := lt_trans (by norm_num) h
  set d := getDistance b p with hd
  have hdne : d ≠ 0 := ne_of_gt hdpos
  have hd2 : d ^ 2 = dx ^ 2 + dy ^ 2 := by
    rw [hd, getDistance, ← hdx, ← hdy]
    exact Real.sq_sqrt (by positivity)
  have hz : (⟨dx, dy⟩ : ℂ) ≠ 0 := by
    intro h0
    have hx0 : dx = 0 := congrArg Complex.re h0
    have hy0 : dy = 0 := congrArg Complex.im h0
    rw [hx0, hy0] at hd2
    have : d ^ 2 = 0 := by rw [hd2]; ring
    exact hdne (pow_eq_zero_iff (n := 2) (by norm_num) |>.mp this)
  have habs : Complex.abs ⟨dx, dy⟩ = d := by
    rw [Complex.abs_apply, Complex.normSq_mk, hd, getDistance, ← hdx, ← hdy]
    ring_nf
  have hcos : Real.cos (getAngle b p) = dx / d := by
    rw [getAngle, ← hdx, ← hdy, Complex.cos_arg hz, habs]
  have hsin : Real.sin (getAngle b p) = dy / d := by
    rw [getAngle, ← hdx, ← hdy, Complex.sin_arg, habs]
  rw [getDistance, hcos, hsin]
  have h1 : p.x - (b.x + dx / d * (d - 15)) = dx * 15 / d := by
    rw [hdx]; field_simp; ring
  have h2 : p.y - (b.y + dy / d * (d - 15)) = dy * 15 / d := by
    rw [hdy]; field_simp; ring
  rw [h1, h2]
  have h3 : (dx * 15 / d) ^ 2 + (dy * 15 / d) ^ 2 = 225 := by
    have he : (dx * 15 / d) ^ 2 + (dy * 15 / d) ^ 2 = (dx ^ 2 + dy ^ 2) * 225 / d ^ 2 := by
      ring
    rw [he, ← hd2]
    field_simp
  rw [h3]
  rw [show (225 : ℝ) = 15 ^ 2 by norm_num, Real.sqrt_sq (by norm_num)]

/-- C6: after any call of `updateLazyBrush(p)` (with the default `friction = 0`,
as at every call site) returns, the brush is within `lazyRadius` of the raw
pointer position, for every prior state and every pointer input. -/
theorem C6_lazy_radius_invariant (s : AppState) (p : Point) :
    getDistance ((updateLazyBrush s p 0).1).brushPos
      ((updateLazyBrush s p 0).1).pointerPos ≤ lazyRadius := by
  cases hlz : s.lazyEnabled with
  | false =>
    simp only [updateLazyBrush, hlz, if_true]
    show getDistance p p ≤ lazyRadius
    rw [getDistance, lazyRadius]
    simp only [sub_self]
    norm_num [Real.sqrt_eq_zero']
  | true =>
    by_cases hmove : lazyRadius < getDistance s.brushPos p
    · simp only [updateLazyBrush, hlz]
      rw [if_neg (by simp), if_pos hmove, if_neg (lt_irrefl 0)]
      exact le_of_eq (getDistance_after_move s.brushPos p hmove)
    · simp only [updateLazyBrush, hlz]
      rw [if_neg (by simp), if_neg hmove]
      exact not_lt.mp hmove

/-- Witness for C5: from the initial brush at (0,0), a pointer at (8,0) is
inside the radius (no move, `false`); a pointer at (20,0) is at distance 20,
so the brush moves by 5 (returning `true`). -/
theorem C5_lazy_update_witness :
    (updateLazyBrush initialState ⟨8, 0⟩ 0 = ({ initialState with pointerPos := ⟨8, 0⟩ }, false)) ∧
    (updateLazyBrush initialState ⟨20, 0⟩ 0 =
      ({ initialState with
          pointerPos := ⟨20, 0⟩,
          brushPos := ⟨(0 : ℝ) + Real.cos (getAngle (⟨0, 0⟩ : Point) ⟨20, 0⟩) *
                        ((getDistance (⟨0, 0⟩ : Point) ⟨20, 0⟩ - lazyRadius) * (1 - 0)),
                      (0 : ℝ) + Real.sin (getAngle (⟨0, 0⟩ : Point) ⟨20, 0⟩) *
                        ((getDistance (⟨0, 0⟩ : Point) ⟨20, 0⟩ - lazyRadius) * (1 - 0))⟩ },
        true)) := by
  have hb0 : initialState.brushPos = (⟨0, 0⟩ : Point) := rfl
  have hd8 : getDistance (initialState.brushPos) ⟨8, 0⟩ = 8 := by
    rw [hb0, getDistance]
    have he : ((8 : ℝ) - 0) ^ 2 + ((0 : ℝ) - 0) ^ 2 = 8 ^ 2 := by norm_num
    rw [he, Real.sqrt_sq (by norm_num)]
  have hd20 : getDistance (initialState.brushPos) ⟨20, 0⟩ = 20 := by
    rw [hb0, getDistance]
    have he : ((20 : ℝ) - 0) ^ 2 + ((0 : ℝ) - 0) ^ 2 = 20 ^ 2 := by norm_num
    rw [he, Real.sqrt_sq (by norm_num)]
  constructor
  · exact (C5_lazy_update initialState ⟨8, 0⟩ 0 le_rfl rfl).1
      (by rw [hd8, lazyRadius]; norm_num)
  · have h := (C5_lazy_update initialState ⟨20, 0⟩ 0 le_rfl rfl).2
      (by rw [hd20, lazyRadius]; norm_num)
    rw [h]
    rfl

/-! ## Stroke store and history invariants (C3, C4, C7, C8, C10) -/

/-- The stroke recorded by an `ADD_STROKE` history entry. -/
def strokeOf : Action → Option Stroke
  | .addStroke st => some st
  | .clear _ => none

/-- An entry is a well-formed `ADD_STROKE` action whose stroke has at least two
points — the only shape `stopDrawing` ever pushes. -/
def goodAction : Action → Prop
  | .addStroke st => 2 ≤ st.points.length
  | .clear _ => False

/-- The invariant maintained by every modelled operation: history-cursor
bounds, capped log length, every stored and logged stroke has at least two
points, every log entry is an `ADD_STROKE`, and the stroke store is a fixed
prefix (strokes whose log entries were evicted) followed by the strokes of the
applied log entries. -/
def MasterInv (s : AppState) : Prop :=
  -1 ≤ s.historyIndex ∧
  s.historyIndex < (s.history.length : ℤ) ∧
  (s.history = [] → s.historyIndex = -1) ∧
  s.history.length ≤ 50 ∧
  (∀ st ∈ s.strokes, 2 ≤ st.points.length) ∧
  (∀ a ∈ s.history, goodAction a) ∧
  ∃ base, s.strokes = base ++ (s.history.take (s.historyIndex + 1).toNat).filterMap strokeOf

/-- The invariant only depends on the stroke store, the log and the cursor. -/
lemma masterInv_congr (b : AppState) {a : AppState} (hst : a.strokes = b.strokes)
    (hh : a.history = b.history) (hi : a.historyIndex = b.historyIndex)
    (h : MasterInv b) : MasterInv a := by
  unfold MasterInv
  rw [hst, hh, hi]
  exact h

lemma masterInv_initialState : MasterInv initialState := by
  refine ⟨by norm_num [initialState], by norm_num [initialState], fun _ => rfl,
    by norm_num [initialState], ?_, ?_, [], by simp [initialState]⟩
  · intro st hst
    simp [initialState] at hst
  · intro a ha
    simp [initialState] at ha

/-- The function `updateLazyBrush` only touches the pointer and brush positions. -/
lemma updateLazyBrush_core (s : AppState) (p : Point) (f : ℝ) :
    ((updateLazyBrush s p f).1).strokes = s.strokes ∧
    ((updateLazyBrush s p f).1).history = s.history ∧
    ((updateLazyBrush s p f).1).historyIndex = s.historyIndex := by
  simp only [updateLazyBrush]
  split_ifs <;> exact ⟨rfl, rfl, rfl⟩

/-- The function `startDrawing` does not touch the stroke store, the log or the cursor. -/
lemma startDrawing_core (s : AppState) (pos : Point) (now : ℤ) :
    (startDrawing s pos now).strokes = s.strokes ∧
    (startDrawing s pos now).history = s.history ∧
    (startDrawing s pos now).historyIndex = s.historyIndex := by
  unfold startDrawing
  split_ifs
  · exact ⟨rfl, rfl, rfl⟩
  · obtain ⟨h1, h2, h3⟩ := updateLazyBrush_core { s with isDrawing := true } pos 0
    exact ⟨h1, h2, h3⟩

/-- The function `continueDrawing` does not touch the stroke store, the log or the cursor. -/
lemma continueDrawing_core (s : AppState) (pos : Point) :
    (continueDrawing s pos).strokes = s.strokes ∧
    (continueDrawing s pos).history = s.history ∧
    (continueDrawing s pos).historyIndex = s.historyIndex := by
  unfold continueDrawing
  obtain ⟨h1, h2, h3⟩ := updateLazyBrush_core s pos 0
  cases s.currentStroke with
  | none => exact ⟨rfl, rfl, rfl⟩
  | some st =>
    split_ifs with hg
    · exact ⟨rfl, rfl, rfl⟩
    · simp only []
      split_ifs with hr
      · exact ⟨h1, h2, h3⟩
      · exact ⟨h1, h2, h3⟩

/-- The two-finger handlers do not touch the stroke store, log or cursor. -/
lemma handleTwoFingerGesture_core (s : AppState) (p1 p2 : Point) :
    (handleTwoFingerGesture s p1 p2).strokes = s.strokes ∧
    (handleTwoFingerGesture s p1 p2).history = s.history ∧
    (handleTwoFingerGesture s p1 p2).historyIndex = s.historyIndex := by
  unfold handleTwoFingerGesture
  split_ifs <;> exact ⟨rfl, rfl, rfl⟩

lemma masterInv_enableDrawing {s : AppState} (h : MasterInv s) :
    MasterInv (enableDrawing s) :=
  masterInv_congr s rfl rfl rfl h

lemma masterInv_startDrawing {s : AppState} (pos : Point) (now : ℤ) (h : MasterInv s) :
    MasterInv (startDrawing s pos now) :=
  masterInv_congr s (startDrawing_core s pos now).1 (startDrawing_core s pos now).2.1
    (startDrawing_core s pos now).2.2 h

lemma masterInv_continueDrawing {s : AppState} (pos : Point) (h : MasterInv s) :
    MasterInv (continueDrawing s pos) :=
  masterInv_congr s (continueDrawing_core s pos).1 (continueDrawing_core s pos).2.1
    (continueDrawing_core s pos).2.2 h

lemma masterInv_initTwoFinger {s : AppState} (p1 p2 : Point) (h : MasterInv s) :
    MasterInv (initTwoFingerGesture s p1 p2) :=
  masterInv_congr s rfl rfl rfl h

lemma masterInv_twoFinger {s : AppState} (p1 p2 : Point) (h : MasterInv s) :
    MasterInv (handleTwoFingerGesture s p1 p2) :=
  masterInv_congr s (handleTwoFingerGesture_core s p1 p2).1
    (handleTwoFingerGesture_core s p1 p2).2.1 (handleTwoFingerGesture_core s p1 p2).2.2 h

/-- Applying `addToHistory` with an `ADD_STROKE` entry preserves the invariant, given
that the committed stroke already sits at the end of the stroke store (the
`stopDrawing` commit path pushes it before logging). -/
lemma masterInv_addToHistory {t : AppState} {st : Stroke} (hst : 2 ≤ st.points.length)
    (h1 : -1 ≤ t.historyIndex) (h2 : t.historyIndex < (t.history.length : ℤ))
    (h4 : t.history.length ≤ 50)
    (h5 : ∀ x ∈ t.strokes, 2 ≤ x.points.length)
    (h6 : ∀ b ∈ t.history, goodAction b)
    (base : List Stroke)
    (hdec : t.strokes =
      base ++ ((t.history.take (t.historyIndex + 1).toNat).filterMap strokeOf ++ [st])) :
    MasterInv (addToHistory t (Action.addStroke st)) := by
  have hk : ((t.historyIndex + 1).toNat : ℤ) = t.historyIndex + 1 := by omega
  have hkn : (t.historyIndex + 1).toNat ≤ t.history.length := by omega
  have hlen2 : (t.history.take (t.historyIndex + 1).toNat ++ [Action.addStroke st]).length
      = (t.historyIndex + 1).toNat + 1 := by
    simp only [List.length_append, List.length_take, List.length_cons, List.length_nil]
    omega
  unfold addToHistory
  simp only []
  split_ifs with hev
  · -- eviction: the log was full and entirely applied
    rw [hlen2] at hev
    have hn50 : t.history.length = 50 := by omega
    have hk50 : (t.historyIndex + 1).toNat = 50 := by omega
    have htake : t.history.take (t.historyIndex + 1).toNat = t.history :=
      List.take_of_length_le (by omega)
    obtain ⟨a0, tl, hcons⟩ : ∃ a0 tl, t.history = a0 :: tl := by
      cases hh : t.history with
      | nil => rw [hh] at hn50; simp at hn50
      | cons x xs => exact ⟨x, xs, rfl⟩
    have hg0 : goodAction a0 := h6 a0 (by rw [hcons]; exact List.mem_cons_self a0 tl)
    obtain ⟨st0, hst0⟩ : ∃ st0, a0 = Action.addStroke st0 := by
      cases a0 with
      | addStroke s0 => exact ⟨s0, rfl⟩
      | clear prev => exact hg0.elim
    have htl : tl.length = 49 := by
      rw [hcons] at hn50
      simpa using hn50
    have hdrop : (t.history.take (t.historyIndex + 1).toNat ++ [Action.addStroke st]).drop 1
        = tl ++ [Action.addStroke st] := by
      rw [htake, hcons]
      rfl
    rw [hdrop]
    have hlen3 : (tl ++ [Action.addStroke st]).length = 50 := by
      simp only [List.length_append, List.length_cons, List.length_nil]
      omega
    simp only [MasterInv]
    refine ⟨by omega, ?_, ?_, ?_, ?_, ?_, base ++ [st0], ?_⟩
    · rw [hlen3]
      omega
    · intro h0
      exact absurd (congrArg List.length h0) (by rw [hlen3]; simp)
    · rw [hlen3]
    · exact h5
    · intro a ha
      rcases List.mem_append.mp ha with ha | ha
      · exact h6 a (by rw [hcons]; exact List.mem_cons_of_mem a0 ha)
      · rw [List.mem_singleton.mp ha]
        exact hst
    · have hto : (t.historyIndex + 1 - 1 + 1).toNat = 50 := by omega
      rw [hto, List.take_of_length_le (by rw [hlen3])]
      rw [htake, hcons, hst0] at hdec
      simp only [List.filterMap_cons, strokeOf] at hdec
      rw [hdec]
      simp [strokeOf, List.filterMap_append, List.append_assoc]
  · -- no eviction
    rw [hlen2] at hev
    simp only [MasterInv]
    refine ⟨by omega, ?_, ?_, ?_, ?_, ?_, base, ?_⟩
    · rw [hlen2]
      omega
    · intro h0
      exact absurd (congrArg List.length h0) (by rw [hlen2]; simp)
    · rw [hlen2]
      omega
    · exact h5
    · intro a ha
      rcases List.mem_append.mp ha with ha | ha
      · exact h6 a (List.take_subset _ _ ha)
      · rw [List.mem_singleton.mp ha]
        exact hst
    · have hto : (t.historyIndex + 1 + 1).toNat = (t.historyIndex + 1).toNat + 1 := by omega
      rw [hto, List.take_of_length_le (by rw [hlen2])]
      rw [hdec]
      simp [strokeOf, List.filterMap_append, List.append_assoc]

/-- The function `stopDrawing` preserves the invariant. -/
lemma masterInv_stopDrawing {s : AppState} (h : MasterInv s) : MasterInv (stopDrawing s) := by
  obtain ⟨h1, h2, h3, h4, h5, h6, base, hdec⟩ := h
  unfold stopDrawing
  cases s.currentStroke with
  | none => exact masterInv_congr s rfl rfl rfl ⟨h1, h2, h3, h4, h5, h6, base, hdec⟩
  | some st =>
    simp only []
    split_ifs with hg
    · refine masterInv_congr _ rfl rfl rfl
        (masterInv_addToHistory hg.2 h1 h2 h4 ?_ h6 base ?_)
      · intro x hx
        rcases List.mem_append.mp hx with hx | hx
        · exact h5 x hx
        · rw [List.mem_singleton.mp hx]
          exact hg.2
      · show s.strokes ++ [st] = base ++ _
        rw [hdec, List.append_assoc]
    · exact masterInv_congr s rfl rfl rfl ⟨h1, h2, h3, h4, h5, h6, base, hdec⟩

/-- In an invariant state with a non-negative cursor, the entry under the
cursor is an `ADD_STROKE` whose stroke is the last stored stroke, and `undo`
pops exactly that stroke. -/
lemma undo_closed {s : AppState} (h : MasterInv s) (hge : 0 ≤ s.historyIndex) :
    ∃ st, s.history[s.historyIndex.toNat]? = some (Action.addStroke st) ∧
      s.strokes = s.strokes.dropLast ++ [st] ∧
      undo s = { s with
          strokes := s.strokes.dropLast,
          historyIndex := s.historyIndex - 1,
          isDirty := true } := by
  obtain ⟨h1, h2, h3, h4, h5, h6, base, hdec⟩ := h
  have hlt : s.historyIndex.toNat < s.history.length := by omega
  have ha : s.history[s.historyIndex.toNat]? = some s.history[s.historyIndex.toNat] :=
    List.getElem?_eq_getElem hlt
  have hmem : s.history[s.historyIndex.toNat] ∈ s.history := List.getElem?_mem ha
  have hga : goodAction s.history[s.historyIndex.toNat] := h6 _ hmem
  obtain ⟨st, hsteq⟩ : ∃ st, s.history[s.historyIndex.toNat] = Action.addStroke st := by
    cases hc : s.history[s.historyIndex.toNat] with
    | addStroke s0 => exact ⟨s0, rfl⟩
    | clear prev => rw [hc] at hga; exact hga.elim
  have hk : (s.historyIndex + 1).toNat = s.historyIndex.toNat + 1 := by omega
  rw [hk, List.take_succ, ha, hsteq] at hdec
  simp only [List.filterMap_append, Option.toList_some, List.filterMap_cons,
    List.filterMap_nil, strokeOf] at hdec
  rw [← List.append_assoc] at hdec
  have hdl : s.strokes.dropLast = base ++
      (s.history.take s.historyIndex.toNat).filterMap strokeOf := by
    rw [hdec, List.dropLast_concat]
  refine ⟨st, by rw [ha, hsteq], by rw [hdl, ← hdec], ?_⟩
  unfold undo
  rw [if_pos hge, ha, hsteq]

/-- The function `undo` preserves the invariant. -/
lemma masterInv_undo {s : AppState} (h : MasterInv s) : MasterInv (undo s) := by
  by_cases hge : 0 ≤ s.historyIndex
  · obtain ⟨st, ha, hsplit, hundo⟩ := undo_closed h hge
    obtain ⟨h1, h2, h3, h4, h5, h6, base, hdec⟩ := h
    rw [hundo]
    simp only [MasterInv]
    refine ⟨by omega, by omega, ?_, h4, ?_, h6, base, ?_⟩
    · intro h0
      have := h3 h0
      omega
    · intro x hx
      exact h5 x ((List.dropLast_sublist s.strokes).subset hx)
    · have hk : (s.historyIndex + 1).toNat = s.historyIndex.toNat + 1 := by omega
      rw [hk, List.take_succ, ha] at hdec
      simp only [List.filterMap_append, Option.toList_some, List.filterMap_cons,
        List.filterMap_nil, strokeOf] at hdec
      rw [← List.append_assoc] at hdec
      have hk2 : (s.historyIndex - 1 + 1).toNat = s.historyIndex.toNat := by omega
      rw [hk2, hdec, List.dropLast_concat]
  · unfold undo
    rw [if_neg hge]
    exact h

/-- In an invariant state with the cursor not at the end, the next entry is an
`ADD_STROKE` and `redo` re-appends exactly its stroke. -/
lemma redo_closed {s : AppState} (h : MasterInv s)
    (hlt : s.historyIndex < (s.history.length : ℤ) - 1) :
    ∃ st, s.history[(s.historyIndex + 1).toNat]? = some (Action.addStroke st) ∧
      2 ≤ st.points.length ∧
      redo s = { s with
          historyIndex := s.historyIndex + 1,
          strokes := s.strokes ++ [st],
          isDirty := true } := by
  obtain ⟨h1, h2, h3, h4, h5, h6, base, hdec⟩ := h
  have hi0 : (0 : ℤ) ≤ s.historyIndex + 1 := by omega
  have hilt : (s.historyIndex + 1).toNat < s.history.length := by omega
  have ha : s.history[(s.historyIndex + 1).toNat]? =
      some s.history[(s.historyIndex + 1).toNat] :=
    List.getElem?_eq_getElem hilt
  have hmem : s.history[(s.historyIndex + 1).toNat] ∈ s.history := List.getElem?_mem ha
  have hga : goodAction s.history[(s.historyIndex + 1).toNat] := h6 _ hmem
  obtain ⟨st, hsteq⟩ : ∃ st, s.history[(s.historyIndex + 1).toNat] = Action.addStroke st := by
    cases hc : s.history[(s.historyIndex + 1).toNat] with
    | addStroke s0 => exact ⟨s0, rfl⟩
    | clear prev => rw [hc] at hga; exact hga.elim
  rw [hsteq] at hga
  refine ⟨st, by rw [ha, hsteq], hga, ?_⟩
  unfold redo
  rw [if_pos hlt]
  simp only []
  rw [if_pos hi0, ha, hsteq]

/-- The function `redo` preserves the invariant. -/
lemma masterInv_redo {s : AppState} (h : MasterInv s) : MasterInv (redo s) := by
  by_cases hlt : s.historyIndex < (s.history.length : ℤ) - 1
  · obtain ⟨st, ha, hst2, hredo⟩ := redo_closed h hlt
    obtain ⟨h1, h2, h3, h4, h5, h6, base, hdec⟩ := h
    rw [hredo]
    simp only [MasterInv]
    refine ⟨by omega, by omega, ?_, h4, ?_, h6, base, ?_⟩
    · intro h0
      rw [h0] at hlt
      simp at hlt
      omega
    · intro x hx
      rcases List.mem_append.mp hx with hx | hx
      · exact h5 x hx
      · rw [List.mem_singleton.mp hx]
        exact hst2
    · have hk : (s.historyIndex + 1 + 1).toNat = (s.historyIndex + 1).toNat + 1 := by omega
      rw [hk, List.take_succ, ha]
      simp only [List.filterMap_append, Option.toList_some, List.filterMap_cons,
        List.filterMap_nil, strokeOf]
      rw [hdec, List.append_assoc]
  · unfold redo
    rw [if_neg hlt]
    exact h

/-- The function `clear` preserves the invariant. -/
lemma masterInv_clear {s : AppState} (h : MasterInv s) : MasterInv (clear s) := by
  unfold clear
  split_ifs with hne
  · refine ⟨by norm_num, by norm_num, fun _ => rfl, by norm_num, ?_, ?_, [], by simp⟩
    · intro st hst
      simp at hst
    · intro a ha
      simp at ha
  · exact h

/-- Every reachable state satisfies the master invariant. -/
lemma reachable_masterInv {s : AppState} (h : Reachable s) : MasterInv s := by
  induction h with
  | init => exact masterInv_initialState
  | enable _ ih => exact masterInv_enableDrawing ih
  | start pos now _ ih => exact masterInv_startDrawing pos now ih
  | move pos _ ih => exact masterInv_continueDrawing pos ih
  | stop _ ih => exact masterInv_stopDrawing ih
  | undo _ ih => exact masterInv_undo ih
  | redo _ ih => exact masterInv_redo ih
  | clear _ ih => exact masterInv_clear ih
  | initTwoFinger p1 p2 _ ih => exact masterInv_initTwoFinger p1 p2 ih
  | twoFinger p1 p2 _ ih => exact masterInv_twoFinger p1 p2 ih

/-- The function `addToHistory` never changes the stroke store. -/
lemma addToHistory_strokes (t : AppState) (a : Action) :
    (addToHistory t a).strokes = t.strokes := by
  unfold addToHistory
  simp only []
  split_ifs <;> rfl

/-- C4: the `clear()` operation is a no-op on the modelled state when the stroke store is
empty; otherwise it empties the store, discards the whole history log
(cursor reset to -1) and resets the transform to identity scale/pan. -/
theorem C4_clear (s : AppState) :
    (s.strokes = [] → clear s = s) ∧
    (s.strokes ≠ [] →
      clear s = { s with
          strokes := [], history := [], historyIndex := -1,
          scale := 1, panX := 0, panY := 0, isDirty := true }) := by
  constructor
  · intro h0
    unfold clear
    rw [if_neg (by rw [h0]; simp)]
  · intro hne
    unfold clear
    rw [if_pos (List.length_pos.mpr hne)]

/-- A one-stroke state for the C4 witness. -/
def oneStrokeState : AppState :=
  { initialState with strokes := [{ points := [⟨0, 0⟩, ⟨1, 0⟩], timestamp := 0 }] }

/-- Witness for C4: the empty initial state is untouched; a one-stroke state is
fully reset. -/
theorem C4_clear_witness :
    clear initialState = initialState ∧
    clear oneStrokeState = { oneStrokeState with
        strokes := [], history := [], historyIndex := -1,
        scale := 1, panX := 0, panY := 0, isDirty := true } :=
  ⟨(C4_clear initialState).1 rfl, (C4_clear oneStrokeState).2 (by simp [oneStrokeState])⟩

/-- C7: in every reachable state the cursor satisfies
`-1 ≤ historyIndex < history.length` (with `historyIndex = -1` when the log is
empty) and the log holds at most 50 entries; a commit that would exceed the cap
evicts the oldest entry after pushing, leaving the cursor's net position
unchanged (incremented, then decremented by the eviction). -/
theorem C7_history_invariant {s : AppState} (h : Reachable s) :
    (-1 ≤ s.historyIndex ∧ s.historyIndex < (s.history.length : ℤ) ∧
      (s.history = [] → s.historyIndex = -1) ∧ s.history.length ≤ 50) ∧
    ∀ a : Action,
      50 < (s.history.take (s.historyIndex + 1).toNat ++ [a]).length →
      (addToHistory s a).history = (s.history.take (s.historyIndex + 1).toNat ++ [a]).drop 1 ∧
      (addToHistory s a).historyIndex = s.historyIndex := by
  obtain ⟨h1, h2, h3, h4, h5, h6, base, hdec⟩ := reachable_masterInv h
  refine ⟨⟨h1, h2, h3, h4⟩, ?_⟩
  intro a hgt
  unfold addToHistory
  simp only []
  rw [if_pos hgt]
  refine ⟨rfl, ?_⟩
  show s.historyIndex + 1 - 1 = s.historyIndex
  omega

/-- C8: every stroke in the committed store of a reachable state has at least
two points; stroke finalization (`stopDrawing`) appends the in-progress stroke
(and logs it) exactly when drawing is active and it has more than one point,
and discards shorter strokes. -/
theorem C8_min_points {s : AppState} (h : Reachable s) :
    (∀ st ∈ s.strokes, 2 ≤ st.points.length) ∧
    (∀ st, s.currentStroke = some st →
      ((s.isDrawing = true ∧ 2 ≤ st.points.length) →
        (stopDrawing s).strokes = s.strokes ++ [st]) ∧
      (st.points.length < 2 → (stopDrawing s).strokes = s.strokes)) := by
  obtain ⟨h1, h2, h3, h4, h5, h6, base, hdec⟩ := reachable_masterInv h
  refine ⟨h5, ?_⟩
  intro st hcs
  constructor
  · intro hcommit
    unfold stopDrawing
    rw [hcs]
    simp only []
    rw [if_pos ⟨hcommit.1, hcommit.2⟩]
    rw [addToHistory_strokes]
  · intro hshort
    unfold stopDrawing
    rw [hcs]
    simp only []
    rw [if_neg (fun hcontra => absurd hcontra.2 (by omega))]

/-- C10: every history entry of a reachable state is an `ADD_STROKE` (the
`CLEAR` branches of `undo`/`redo` are dead code), so `undo` only ever pops the
newest stroke and `redo` only ever re-appends the recorded one. -/
theorem C10_history_all_addStroke {s : AppState} (h : Reachable s) :
    (∀ a ∈ s.history, ∃ st, a = Action.addStroke st) ∧
    (0 ≤ s.historyIndex → (undo s).strokes = s.strokes.dropLast) ∧
    (s.historyIndex < (s.history.length : ℤ) - 1 →
      ∃ st, s.history[(s.historyIndex + 1).toNat]? = some (Action.addStroke st) ∧
        (redo s).strokes = s.strokes ++ [st]) := by
  have hm := reachable_masterInv h
  obtain ⟨h1, h2, h3, h4, h5, h6, base, hdec⟩ := hm
  refine ⟨?_, ?_, ?_⟩
  · intro a ha
    have hga := h6 a ha
    cases a with
    | addStroke st => exact ⟨st, rfl⟩
    | clear prev => exact hga.elim
  · intro hge
    obtain ⟨st, ha, hsplit, hundo⟩ := undo_closed ⟨h1, h2, h3, h4, h5, h6, base, hdec⟩ hge
    rw [hundo]
  · intro hlt
    obtain ⟨st, ha, hst2, hredo⟩ := redo_closed ⟨h1, h2, h3, h4, h5, h6, base, hdec⟩ hlt
    exact ⟨st, ha, by rw [hredo]⟩

/-! ## Undo/redo round-trip (C3) -/

/-- The function `redo` exactly inverts `undo` in an invariant state with a non-negative
cursor, up to forcing the dirty flag. -/
lemma redo_undo_exact {s : AppState} (h : MasterInv s) (hge : 0 ≤ s.historyIndex) :
    redo (undo s) = { s with isDirty := true } := by
  obtain ⟨st, ha, hsplit, hundo⟩ := undo_closed h hge
  obtain ⟨h1, h2, h3, h4, h5, h6, base, hdec⟩ := h
  rw [hundo]
  unfold redo
  simp only []
  rw [if_pos (show (s.historyIndex - 1 : ℤ) < (s.history.length : ℤ) - 1 by omega)]
  rw [show s.historyIndex - 1 + 1 = s.historyIndex by omega]
  rw [if_pos hge, ha]
  simp only []
  rw [← hsplit]

/-- Iterating `undo` N ≤ historyIndex + 1 times keeps the invariant, moves the
cursor down by exactly N, and (for N ≥ 1) leaves the dirty flag set. -/
lemma undo_iter {s : AppState} (h : MasterInv s) :
    ∀ N : ℕ, (N : ℤ) ≤ s.historyIndex + 1 →
      MasterInv (undo^[N] s) ∧ (undo^[N] s).historyIndex = s.historyIndex - N ∧
      (1 ≤ N → (undo^[N] s).isDirty = true) := by
  intro N
  induction N with
  | zero =>
    intro _
    refine ⟨h, by simp, ?_⟩
    intro h1
    exact absurd h1 (by norm_num)
  | succ N ih =>
    intro hN
    obtain ⟨hmt, hidx, _⟩ := ih (by push_cast at hN ⊢; omega)
    have hge : 0 ≤ (undo^[N] s).historyIndex := by
      rw [hidx]
      push_cast at hN ⊢
      omega
    obtain ⟨st, ha, hsplit, hundo⟩ := undo_closed hmt hge
    rw [Function.iterate_succ_apply' undo N s, hundo]
    refine ⟨?_, ?_, fun _ => rfl⟩
    · have := masterInv_undo hmt
      rw [hundo] at this
      exact this
    · show (undo^[N] s).historyIndex - 1 = s.historyIndex - (N + 1 : ℕ)
      rw [hidx]
      push_cast
      omega

/-- Undo N times then redo N times (for 1 ≤ N ≤ historyIndex + 1) restores the
whole state except that the dirty flag ends up set. -/
lemma undo_redo_roundtrip {s : AppState} (h : MasterInv s) :
    ∀ N : ℕ, 1 ≤ N → (N : ℤ) ≤ s.historyIndex + 1 →
      redo^[N] (undo^[N] s) = { s with isDirty := true } := by
  intro N
  induction N with
  | zero =>
    intro h1
    exact absurd h1 (by norm_num)
  | succ N ih =>
    intro _ hN1
    by_cases hN : 1 ≤ N
    · obtain ⟨hmt, hidx, hdirty⟩ := undo_iter h N (by push_cast at hN1 ⊢; omega)
      have hge : 0 ≤ (undo^[N] s).historyIndex := by
        rw [hidx]
        push_cast at hN1 ⊢
        omega
      rw [Function.iterate_succ_apply' undo N s,
        Function.iterate_succ_apply redo N (undo (undo^[N] s)),
        redo_undo_exact hmt hge]
      have hd := hdirty hN
      have hteq : ({ undo^[N] s with isDirty := true } : AppState) = undo^[N] s := by
        rw [← hd]
      rw [hteq]
      exact ih hN (by push_cast at hN1 ⊢; omega)
    · have hN0 : N = 0 := by omega
      subst hN0
      show redo^[0 + 1] (undo^[0 + 1] s) = _
      simp only [Nat.zero_add, Function.iterate_one]
      exact redo_undo_exact h (by push_cast at hN1; omega)

/-- C3: in every reachable state, performing `undo` N times followed by `redo`
N times, for any 0 ≤ N ≤ historyIndex + 1, leaves the stroke store (content
and order) exactly as before the first undo. -/
theorem C3_undo_redo {s : AppState} (h : Reachable s) (N : ℕ)
    (hN : (N : ℤ) ≤ s.historyIndex + 1) :
    (redo^[N] (undo^[N] s)).strokes = s.strokes := by
  cases N with
  | zero => rfl
  | succ N =>
    rw [undo_redo_roundtrip (reachable_masterInv h) (N + 1) (by omega) hN]

/-! ## A concrete drawing run used by several witnesses -/

/-- The stroke committed by the concrete run: press at (0,0), drag to (20,0)
(the lazy brush, radius 15, moves to (5,0)), release. -/
def drawnStroke : Stroke := { points := [⟨0, 0⟩, ⟨5, 0⟩], timestamp := 0 }

/-- Dismiss the splash, press at (0,0), drag to (20,0), release. -/
noncomputable def chainState : AppState :=
  stopDrawing (continueDrawing (startDrawing (enableDrawing initialState) ⟨0, 0⟩ 0) ⟨20, 0⟩)

lemma chainState_reachable : Reachable chainState :=
  Reachable.stop (Reachable.move _ (Reachable.start _ _ (Reachable.enable Reachable.init)))

lemma chain_step1 : startDrawing (enableDrawing initialState) ⟨0, 0⟩ 0 =
    { initialState with
        drawingEnabled := true, isDrawing := true,
        currentStroke := some { points := [⟨0, 0⟩], timestamp := 0 } } := by
  unfold startDrawing enableDrawing updateLazyBrush
  norm_num [initialState, getDistance, lazyRadius, screenToWorld]

lemma chain_step2 :
    continueDrawing
      { initialState with
          drawingEnabled := true, isDrawing := true,
          currentStroke := some { points := [⟨0, 0⟩], timestamp := 0 } } ⟨20, 0⟩ =
    { initialState with
        drawingEnabled := true, isDrawing := true,
        pointerPos := ⟨20, 0⟩, brushPos := ⟨5, 0⟩,
        currentStroke := some { points := [⟨0, 0⟩, ⟨5, 0⟩], timestamp := 0 } } := by
  have hdist : getDistance (⟨0, 0⟩ : Point) ⟨20, 0⟩ = 20 := by
    rw [getDistance]
    have he : ((20 : ℝ) - 0) ^ 2 + ((0 : ℝ) - 0) ^ 2 = 20 ^ 2 := by norm_num
    rw [he, Real.sqrt_sq (by norm_num)]
  have harg : getAngle (⟨0, 0⟩ : Point) ⟨20, 0⟩ = 0 := by
    rw [getAngle]
    have hz : (⟨(20 : ℝ) - 0, (0 : ℝ) - 0⟩ : ℂ) = ((20 : ℝ) : ℂ) := by
      apply Complex.ext <;> simp
    rw [hz]
    exact Complex.arg_ofReal_of_nonneg (by norm_num)
  unfold continueDrawing updateLazyBrush
  norm_num [initialState, hdist, harg, lazyRadius, screenToWorld]

lemma chain_step3 :
    stopDrawing
      { initialState with
          drawingEnabled := true, isDrawing := true,
          pointerPos := ⟨20, 0⟩, brushPos := ⟨5, 0⟩,
          currentStroke := some { points := [⟨0, 0⟩, ⟨5, 0⟩], timestamp := 0 } } =
    { initialState with
        drawingEnabled := true,
        pointerPos := ⟨20, 0⟩, brushPos := ⟨5, 0⟩,
        strokes := [drawnStroke],
        history := [Action.addStroke drawnStroke],
        historyIndex := 0 } := by
  unfold stopDrawing addToHistory
  norm_num [initialState, drawnStroke]

lemma chainState_eq : chainState =
    { initialState with
        drawingEnabled := true,
        pointerPos := ⟨20, 0⟩, brushPos := ⟨5, 0⟩,
        strokes := [drawnStroke],
        history := [Action.addStroke drawnStroke],
        historyIndex := 0 } := by
  unfold chainState
  rw [chain_step1, chain_step2, chain_step3]

/-- Witness for C3: one stroke committed through the pointer pipeline, then one
undo followed by one redo restores the stroke store. -/
theorem C3_undo_redo_witness :
    (redo^[1] (undo^[1] chainState)).strokes = chainState.strokes :=
  C3_undo_redo chainState_reachable 1 (by rw [chainState_eq]; norm_num)

/-- Witness for C7 at the one-commit state of the concrete run. -/
theorem C7_history_invariant_witness :
    -1 ≤ chainState.historyIndex ∧
    chainState.historyIndex < (chainState.history.length : ℤ) ∧
    chainState.history.length ≤ 50 :=
  ⟨(C7_history_invariant chainState_reachable).1.1,
   (C7_history_invariant chainState_reachable).1.2.1,
   (C7_history_invariant chainState_reachable).1.2.2.2⟩

/-- Witness for C8: the stroke committed by the concrete run has two points. -/
theorem C8_min_points_witness :
    chainState.strokes = [drawnStroke] ∧ 2 ≤ drawnStroke.points.length :=
  ⟨by rw [chainState_eq],
   (C8_min_points chainState_reachable).1 drawnStroke
     (by rw [chainState_eq]; exact List.mem_singleton_self _)⟩

/-- Witness for C10: undoing at the one-commit state pops the newest stroke. -/
theorem C10_history_all_addStroke_witness :
    (undo chainState).strokes = chainState.strokes.dropLast :=
  (C10_history_all_addStroke chainState_reachable).2.1 (by rw [chainState_eq])

/-! ## Export size bound (C1) -/

/-- C1 (amended): for a Document whose natural bounding box plus padding
exceeds 2048 in both dimensions, the bitmap allocated by `share()` is at most
`2048 · dpr` in each dimension, where `dpr ≥ 1` is the devicePixelRatio — the
CSS-space size is capped at 2048, but the canvas is allocated at
`width * dpr`, so the plain 2048-pixel bound only holds when
`devicePixelRatio = 1`. -/
lemma shareScaleFactor_nonneg (width height : ℝ) (hw : 0 < width) (hh : 0 < height) :
    0 ≤ shareScaleFactor width height := by
  unfold shareScaleFactor
  simp only []
  split_ifs <;> positivity

lemma shareScaleFactor_le_width (width height : ℝ) (hgt : 2048 < width) :
    shareScaleFactor width height ≤ 2048 / width := by
  unfold shareScaleFactor
  simp only []
  rw [if_pos hgt]
  split_ifs <;>
    first
      | exact min_le_right _ _
      | exact le_trans (min_le_left _ _) (min_le_right _ _)

lemma shareScaleFactor_le_height (width height : ℝ) (hgt : 2048 < height) :
    shareScaleFactor width height ≤ 2048 / height := by
  unfold shareScaleFactor
  simp only []
  rw [if_pos hgt]
  exact min_le_right _ _

theorem C1_export_bound (strokes : List Stroke) (dpr w h : ℝ)
    (hdpr : 1 ≤ dpr)
    (hw : 2048 < naturalWidth strokes) (hh : 2048 < naturalHeight strokes)
    (hsome : shareCanvasSize strokes dpr = some (w, h)) :
    w ≤ 2048 * dpr ∧ h ≤ 2048 * dpr := by
  have hW0 : (0 : ℝ) < naturalWidth strokes := lt_trans (by norm_num) hw
  have hH0 : (0 : ℝ) < naturalHeight strokes := lt_trans (by norm_num) hh
  have hsfW : naturalWidth strokes * shareScaleFactor (naturalWidth strokes)
      (naturalHeight strokes) ≤ 2048 := by
    have h1 := mul_le_mul_of_nonneg_left
      (shareScaleFactor_le_width (naturalWidth strokes) (naturalHeight strokes) hw)
      (le_of_lt hW0)
    have h2 : naturalWidth strokes * (2048 / naturalWidth strokes) = 2048 := by
      field_simp
    rw [h2] at h1
    exact h1
  have hsfH : naturalHeight strokes * shareScaleFactor (naturalWidth strokes)
      (naturalHeight strokes) ≤ 2048 := by
    have h1 := mul_le_mul_of_nonneg_left
      (shareScaleFactor_le_height (naturalWidth strokes) (naturalHeight strokes) hh)
      (le_of_lt hH0)
    have h2 : naturalHeight strokes * (2048 / naturalHeight strokes) = 2048 := by
      field_simp
    rw [h2] at h1
    exact h1
  have hdLe : (if shareScaleFactor (naturalWidth strokes) (naturalHeight strokes) < 0.5 then
      max 1 (dpr * 0.5) else dpr) ≤ dpr := by
    split_ifs
    · exact max_le hdpr (by linarith)
    · exact le_rfl
  have hdNn : (0 : ℝ) ≤ (if shareScaleFactor (naturalWidth strokes)
      (naturalHeight strokes) < 0.5 then max 1 (dpr * 0.5) else dpr) := by
    split_ifs
    · exact le_trans zero_le_one (le_max_left _ _)
    · linarith
  by_cases hempty : strokes.length = 0
  · unfold shareCanvasSize at hsome
    rw [if_pos hempty] at hsome
    exact absurd hsome (by simp)
  · unfold shareCanvasSize at hsome
    rw [if_neg hempty] at hsome
    have hweq : naturalWidth strokes *
        shareScaleFactor (naturalWidth strokes) (naturalHeight strokes) *
        (if shareScaleFactor (naturalWidth strokes) (naturalHeight strokes) < 0.5 then
          max 1 (dpr * 0.5) else dpr) = w :=
      congrArg Prod.fst (Option.some_inj.mp hsome)
    have hheq : naturalHeight strokes *
        shareScaleFactor (naturalWidth strokes) (naturalHeight strokes) *
        (if shareScaleFactor (naturalWidth strokes) (naturalHeight strokes) < 0.5 then
          max 1 (dpr * 0.5) else dpr) = h :=
      congrArg Prod.snd (Option.some_inj.mp hsome)
    constructor
    · rw [← hweq]
      exact le_trans (mul_le_mul_of_nonneg_right hsfW hdNn)
        (mul_le_mul_of_nonneg_left hdLe (by norm_num))
    · rw [← hheq]
      exact le_trans (mul_le_mul_of_nonneg_right hsfH hdNn)
        (mul_le_mul_of_nonneg_left hdLe (by norm_num))

/-- The single diagonal stroke of the C1 example document. -/
def exStroke : Stroke := { points := [⟨0, 0⟩, ⟨4000, 4000⟩], timestamp := 0 }

lemma exDoc_bounds : calculateBounds [exStroke] =
    ⟨((0 : ℝ) : EReal), ((0 : ℝ) : EReal), ((4000 : ℝ) : EReal), ((4000 : ℝ) : EReal)⟩ := by
  have hmin1 : ∀ x : EReal, min ⊤ x = x := fun x => min_eq_right le_top
  have hmax1 : ∀ x : EReal, max ⊥ x = x := fun x => max_eq_right bot_le
  have hmin2 : min ((0 : ℝ) : EReal) ((4000 : ℝ) : EReal) = ((0 : ℝ) : EReal) :=
    min_eq_left (by rw [EReal.coe_le_coe_iff]; norm_num)
  have hmax2 : max ((0 : ℝ) : EReal) ((4000 : ℝ) : EReal) = ((4000 : ℝ) : EReal) :=
    max_eq_right (by rw [EReal.coe_le_coe_iff]; norm_num)
  unfold calculateBounds exStroke
  simp only [List.foldl_cons, List.foldl_nil, boundsStep, hmin1, hmax1, hmin2, hmax2]

lemma exDoc_width : naturalWidth [exStroke] = 4064 := by
  rw [naturalWidth, exDoc_bounds]
  norm_num [EReal.toReal_coe]

lemma exDoc_height : naturalHeight [exStroke] = 4064 := by
  rw [naturalHeight, exDoc_bounds]
  norm_num [EReal.toReal_coe]

/-- The `scaleFactor` for the example document: the 4-megapixel budget gives
`sqrt((2048·2048)/(4064·4064)) = 64/127 ≈ 0.504`, and the two dimension clamps
coincide with it. -/
lemma exDoc_scaleFactor : shareScaleFactor 4064 4064 = 64 / 127 := by
  unfold shareScaleFactor
  simp only []
  rw [if_pos (by norm_num : (2048 : ℝ) * 2048 < 4064 * 4064)]
  rw [if_pos (by norm_num : (2048 : ℝ) < 4064)]
  rw [if_pos (by norm_num : (2048 : ℝ) < 4064)]
  have hsqrt : Real.sqrt (2048 * 2048 / (4064 * 4064)) = 64 / 127 := by
    rw [show (2048 : ℝ) * 2048 / (4064 * 4064) = (64 / 127) ^ 2 by norm_num]
    exact Real.sqrt_sq (by norm_num)
  rw [hsqrt]
  have h24 : (2048 : ℝ) / 4064 = 64 / 127 := by norm_num
  rw [h24, min_self, min_self]

/-- The example document exports at CSS size 2048×2048, times the (unhalved,
since the scale factor 64/127 is not below 0.5) device pixel ratio. -/
lemma exDoc_share (d : ℝ) : shareCanvasSize [exStroke] d = some (2048 * d, 2048 * d) := by
  unfold shareCanvasSize
  rw [if_neg (by simp)]
  simp only []
  rw [exDoc_width, exDoc_height, exDoc_scaleFactor]
  rw [if_neg (by norm_num : ¬((64 : ℝ) / 127 < 0.5))]
  have hfin : (4064 : ℝ) * (64 / 127) = 2048 := by norm_num
  rw [hfin]

/-- C1 counterexample: with devicePixelRatio 2 (a standard HiDPI display), the
one-stroke document from (0,0) to (4000,4000) has natural bounding box plus
padding 4064×4064 — exceeding 2048×2048 — yet the allocated bitmap is
4096×4096: the claimed 2048-pixel cap fails because the canvas is allocated at
`width * dpr`. -/
theorem C1_export_bound_counterexample :
    naturalWidth [exStroke] = 4064 ∧ naturalHeight [exStroke] = 4064 ∧
    shareCanvasSize [exStroke] 2 = some (4096, 4096) ∧ ¬((4096 : ℝ) ≤ 2048) := by
  refine ⟨exDoc_width, exDoc_height, ?_, by norm_num⟩
  rw [exDoc_share]
  norm_num

/-- Witness for the amended C1 at devicePixelRatio 1: the example document
exports at 2048×2048 ≤ 2048·1. -/
theorem C1_export_bound_witness :
    (2048 * 1 ≤ (2048 : ℝ) * 1) ∧ (2048 * 1 ≤ (2048 : ℝ) * 1) :=
  C1_export_bound [exStroke] 1 (2048 * 1) (2048 * 1) (by norm_num)
    (by rw [exDoc_width]; norm_num) (by rw [exDoc_height]; norm_num) (exDoc_share 1)

end Canvas
